import Mathlib

/-!
# Verification of `rulinalg`'s matrix decomposition module

A shallow embedding of `src/matrix/decomposition.rs` over exact rational
arithmetic.  Matrices are modelled as functions `ℕ → ℕ → ℚ` together with an
explicit dimension; the Rust loops that mutate flat buffers become structural
recursions over the lists of indices they iterate, threading the mutated
state explicitly.  Fallible operations return `Except Error`; operations that
can hit a fatal panic (an `expect`, a `usize` underflow, a slice-bounds
assertion) return `Option` with `none` modelling the panic.

Floating point is modelled by exact rationals: `sqrt` becomes `ratSqrt`
(the exact rational square root when one exists, `0` otherwise — theorems
that depend on the square root carry the hypothesis that it is exact), and
`!x.is_finite()` after a division holds exactly when the divisor is zero,
since exact rational arithmetic produces no other non-finite values.
-/

namespace Rulinalg

/-- The two error kinds used by the decomposition module
(`error::ErrorKind` restricted to the variants it constructs). -/
inductive ErrorKind where
  | DecompFailure
  | InvalidArg
deriving DecidableEq, Repr

/-- `error::Error`: a kind together with a human-readable message. -/
structure Error where
  kind : ErrorKind
  message : String
deriving DecidableEq, Repr

/-- Matrices are modelled as total functions from (row, column) to ℚ; every
operation carries its dimensions separately, mirroring `Matrix { rows, cols,
data }` where `data[j*cols + i]` is entry `(j, i)`. -/
abbrev Mat := ℕ → ℕ → ℚ

/-- `s = 0; for k in 0..m { s = s + g k }` — the accumulation pattern used
for all inner sums in the source. -/
def sumRange (m : ℕ) (g : ℕ → ℚ) : ℚ :=
  (List.range m).foldl (fun s k => s + g k) 0

/-- Writing entry `(r, c)` of a matrix: `data[r*cols + c] = x`. -/
def updF (f : Mat) (r c : ℕ) (x : ℚ) : Mat :=
  fun j k => if j = r ∧ k = c then x else f j k

/-- Matrix product of two `n × n` matrices (entry-wise dot product of row
and column), as produced by `&p * self` etc. -/
def matMulF (n : ℕ) (a b : Mat) : Mat :=
  fun j i => sumRange n (fun k => a j k * b k i)

/-- `Matrix::identity`. -/
def idMat : Mat := fun j k => if j = k then 1 else 0

/-- Modelled from the spec: `utils::argmax` (the arg-max utility is an
external collaborator whose source is not part of this module).  Per §4.3
and §6 it returns the index and value of the first occurrence of the
maximum *value* (signed comparison, not magnitude).  Helper carrying the
current index and best-so-far. -/
def argmaxAux : List ℚ → ℕ → ℕ × ℚ → ℕ × ℚ
  | [], _, best => best
  | y :: rest, i, best => if best.2 < y then argmaxAux rest (i + 1) (i, y)
                          else argmaxAux rest (i + 1) best

/-- Modelled from the spec: `utils::argmax` on a sequence; first occurrence
of the maximum value.  (Never called on an empty slice by `lup_decomp`;
the `[]` case is a junk value.) -/
def argmax : List ℚ → ℕ × ℚ
  | [] => (0, 0)
  | x :: rest => argmaxAux rest 1 (0, x)

/-- `for j in 0..n { p.data.swap(i*n + j, row*n + j) }`: exchanging rows
`i` and `r` of `p`. -/
def swapRows (p : Mat) (i r : ℕ) : Mat :=
  fun j k => if j = i then p r k else if j = r then p i k else p j k

/-- One step of the pivot loop of `lup_decomp` at row `i`: take the
arg-max of `mt.data[i*(n+1)..(i+1)*n]` — column `i` of `a` restricted to
rows `i..n` — and, if the returned (sub-slice-relative) index `row` is
non-zero, swap rows `i` and `row` of `p`. -/
def lupPStep (a : Mat) (n : ℕ) (p : Mat) (i : ℕ) : Mat :=
  let col := (List.range (n - i)).map (fun dj => a (i + dj) i)
  let row := (argmax col).1
  if row ≠ 0 then swapRows p i row else p

/-- The pivot loop of `lup_decomp`, starting from the identity. -/
def lupP (a : Mat) (n : ℕ) : Mat :=
  (List.range n).foldl (lupPStep a n) idMat

/-- The error produced when a pivot `u[[i,i]]` is zero. -/
def lupErr : Error := ⟨ErrorKind.DecompFailure, "Matrix could not be LUP decomposed."⟩

/-- First inner loop of `lup_decomp` at outer index `i`:
`for j in 0..i+1 { s1 = Σ_{k<j} l[j,k]*u[k,i]; u[j,i] = a_2[j,i] - s1 }`,
processing the given list of `j`s in order and threading `u`. -/
def lupInner1 (a2 : Mat) (l : Mat) (i : ℕ) : List ℕ → Mat → Mat
  | [], u => u
  | j :: js, u =>
      lupInner1 a2 l i js (updF u j i (a2 j i - sumRange j (fun k => l j k * u k i)))

/-- Second inner loop of `lup_decomp` at outer index `i`:
`for j in i..n { s2 = Σ_{k<i} l[j,k]*u[k,i]; if u[[i,i]] == 0 { Err } ;
l[j,i] = (a_2[j,i] - s2) / u[[i,i]] }`, threading `l` and short-circuiting
on the zero-pivot error. -/
def lupInner2 (a2 : Mat) (u : Mat) (i : ℕ) : List ℕ → Mat → Except Error Mat
  | [], l => .ok l
  | j :: js, l =>
      if u i i = 0 then .error lupErr
      else lupInner2 a2 u i js
        (updF l j i ((a2 j i - sumRange i (fun k => l j k * u k i)) / u i i))

/-- Outer loop of `lup_decomp`: for each `i`, set `l[i,i] = 1`, run the
`u`-column loop for `j in 0..i+1`, then the `l`-column loop for `j in i..n`. -/
def lupOuterLoop (a2 : Mat) (n : ℕ) : List ℕ → Mat × Mat → Except Error (Mat × Mat)
  | [], st => .ok st
  | i :: is, (l, u) =>
      let l1 := updF l i i 1
      let u1 := lupInner1 a2 l1 i (List.range (i + 1)) u
      match lupInner2 a2 u1 i (List.range' i (n - i)) l1 with
      | .error e => .error e
      | .ok l2 => lupOuterLoop a2 n is (l2, u1)

/-- `lup_decomp` on an `n × n` matrix: compute the permutation matrix `p`,
form `a_2 = &p * self`, zero-initialize `l` and `u`, and run the Doolittle
loops.  Returns `(l, u, p)`. -/
def lup_decomp (a : Mat) (n : ℕ) : Except Error (Mat × Mat × Mat) :=
  let p := lupP a n
  let a2 := matMulF n p a
  match lupOuterLoop a2 n (List.range n) (fun _ _ => 0, fun _ _ => 0) with
  | .error e => .error e
  | .ok (l, u) => .ok (l, u, p)

/-- Vectors are total functions `ℕ → ℚ`, used for right-hand sides. -/
abbrev Vec := ℕ → ℚ

/-- Writing entry `j` of a vector. -/
def updV (f : Vec) (j : ℕ) (x : ℚ) : Vec :=
  fun k => if k = j then x else f k

/-- Matrix–vector product `&p * y` for an `n × n` matrix. -/
def matVecF (n : ℕ) (m : Mat) (v : Vec) : Vec :=
  fun j => sumRange n (fun k => m j k * v k)

/-- Modelled from the spec: the error produced by the external
forward/backward substitution solvers when a diagonal entry is zero. -/
def substErr : Error := ⟨ErrorKind.DecompFailure, "Substitution failed: matrix is singular."⟩

/-- Modelled from the spec: loop of `forward_substitution` (an external
collaborator, §6: "forward/backward triangular substitution given a
triangular matrix and a right-hand-side vector (each may fail with
DecompFailure if a diagonal entry is zero)").  Solves row by row from the
top: `y j = (b j - Σ_{k<j} l[j,k]·y k) / l[j,j]`. -/
def forwardSubGo (l : Mat) (b : Vec) : List ℕ → Vec → Except Error Vec
  | [], y => .ok y
  | j :: js, y =>
      if l j j = 0 then .error substErr
      else forwardSubGo l b js
        (updV y j ((b j - sumRange j (fun k => l j k * y k)) / l j j))

/-- Modelled from the spec: `forward_substitution` on an `n × n` lower
triangular matrix. -/
def forward_substitution (l : Mat) (b : Vec) (n : ℕ) : Except Error Vec :=
  forwardSubGo l b (List.range n) (fun _ => 0)

/-- Modelled from the spec: loop of `back_substitution`, solving from the
bottom: `y j = (b j - Σ_{j<k<n} u[j,k]·y k) / u[j,j]`. -/
def backSubGo (u : Mat) (b : Vec) (n : ℕ) : List ℕ → Vec → Except Error Vec
  | [], y => .ok y
  | j :: js, y =>
      if u j j = 0 then .error substErr
      else backSubGo u b n js
        (updV y j ((b j - sumRange (n - j - 1) (fun d => u j (j + 1 + d) * y (j + 1 + d))) / u j j))

/-- Modelled from the spec: `back_substitution` on an `n × n` upper
triangular matrix. -/
def back_substitution (u : Mat) (b : Vec) (n : ℕ) : Except Error Vec :=
  backSubGo u b n ((List.range n).reverse) (fun _ => 0)

/-- `solve`: `let (l, u, p) = try!(self.lup_decomp()); let b =
try!(forward_substitution(&l, p * y)); back_substitution(&u, b)`.
Both `try!`s propagate the inner error unchanged — there is no `map_err`
in `solve`. -/
def solve (a : Mat) (n : ℕ) (y : Vec) : Except Error Vec :=
  match lup_decomp a n with
  | .error e => .error e
  | .ok (l, u, p) =>
      match forward_substitution l (matVecF n p y) n with
      | .error e => .error e
      | .ok b => back_substitution u b n

/-- The column-solving loop of `inverse`: for each `i`, solve for the `i`th
standard basis vector by forward then backward substitution, each wrapped in
`.expect(..)` — a substitution failure is a panic, modelled by `none`.  The
accumulator holds the solution vectors as rows; the final matrix is its
transpose. -/
def inverseCols (l u p : Mat) (n : ℕ) : List ℕ → Mat → Option (Except Error Mat)
  | [], acc => some (.ok (fun j i => acc i j))
  | i :: is, acc =>
      let idcol : Vec := fun k => if k = i then 1 else 0
      match forward_substitution l (matVecF n p idcol) n with
      | .error _ => none
      | .ok b =>
          match back_substitution u b n with
          | .error _ => none
          | .ok x => inverseCols l u p n is (fun r c => if r = i then x c else acc r c)

/-- `inverse`: LUP-decompose (mapping a failure to a fresh `DecompFailure`),
check that the product of the `l` and `u` diagonals is non-zero (else the
"singular" error), then solve for each basis column and transpose. -/
def inverse (a : Mat) (n : ℕ) : Option (Except Error Mat) :=
  match lup_decomp a n with
  | .error _ =>
      some (.error ⟨ErrorKind.DecompFailure, "Could not compute LUP factorization for inverse."⟩)
  | .ok (l, u, p) =>
      let d := (List.range n).foldl (fun d i => d * l i i * u i i) 1
      if d = 0 then
        some (.error ⟨ErrorKind.DecompFailure, "Matrix is singular and cannot be inverted."⟩)
      else inverseCols l u p n (List.range n) (fun _ _ => 0)

/-- Modelled from the spec: `self.is_diag()` (external matrix utility) —
every off-diagonal entry of the `n × n` window is zero. -/
def isDiag (a : Mat) (n : ℕ) : Bool :=
  decide (∀ j, j < n → ∀ k, k < n → ¬(j = k) → a j k = 0)

/-- Modelled from the spec: `parity` (external collaborator, §6:
"permutation-matrix parity (±1) for determinant sign").  Reads off the
permutation (column of the `1` in each row) and returns `(-1)^inversions`. -/
def parity (p : Mat) (n : ℕ) : ℚ :=
  let σ := fun j => ((List.range n).filter (fun k => decide (p j k = 1))).headD 0
  let inv := (List.range n).foldl
    (fun c j1 => c + ((List.range n).filter
      (fun j2 => decide (j1 < j2) && decide (σ j2 < σ j1))).length) 0
  (-1 : ℚ) ^ inv

/-- `det`: closed forms for diagonal, `2 × 2` and `3 × 3` matrices;
otherwise `lup_decomp().expect(..)` — a LUP failure is a panic, modelled by
`none` — followed by the product of the `l` and `u` diagonals times the
permutation parity. -/
def det (a : Mat) (n : ℕ) : Option ℚ :=
  if isDiag a n then some ((List.range n).foldl (fun d i => d * a i i) 1)
  else if n = 2 then some (a 0 0 * a 1 1 - a 0 1 * a 1 0)
  else if n = 3 then
    some (a 0 0 * a 1 1 * a 2 2 + a 0 1 * a 1 2 * a 2 0 + a 0 2 * a 1 0 * a 2 1
      - a 0 0 * a 1 2 * a 2 1 - a 0 1 * a 1 0 * a 2 2 - a 0 2 * a 1 1 * a 2 0)
  else
    match lup_decomp a n with
    | .error _ => none
    | .ok (l, u, p) =>
        some (parity p n * (List.range n).foldl (fun d i => d * l i i * u i i) 1)

/-- The exact rational square root: the unique non-negative `c` with
`c * c = q` when it exists in `ℚ`, and `0` otherwise.  Models `T::sqrt`;
theorems whose truth depends on the square root carry the hypothesis that
it is exact (`ratSqrt q * ratSqrt q = q`). -/
def ratSqrt (q : ℚ) : ℚ :=
  let c : ℚ := (Nat.sqrt q.num.toNat : ℚ) / (Nat.sqrt q.den : ℚ)
  if c * c = q then c else 0

/-- The error `cholesky` returns on a non-finite division. -/
def pdErr : Error := ⟨ErrorKind.DecompFailure, "Matrix is not positive definite."⟩

/-- Inner loop of `cholesky` over the entries `j` of row `i`: above the
diagonal push `0`; on the diagonal push `sqrt(a[i,i] - Σ_{k<j} …)`; below
it divide by the already-computed diagonal `new_data[j*n + j]` and fail
with `DecompFailure` when the quotient is non-finite — in exact rational
arithmetic, exactly when that divisor is zero. -/
def choleskyInner (a : Mat) (n i : ℕ) : List ℕ → List ℚ → Except Error (List ℚ)
  | [], d => .ok d
  | j :: js, d =>
      if i < j then choleskyInner a n i js (d ++ [0])
      else
        let sum := sumRange j (fun k => d.getD (i * n + k) 0 * d.getD (j * n + k) 0)
        if j = i then choleskyInner a n i js (d ++ [ratSqrt (a i j - sum)])
        else
          if d.getD (j * n + j) 0 = 0 then .error pdErr
          else choleskyInner a n i js (d ++ [(a i j - sum) / d.getD (j * n + j) 0])

/-- Outer loop of `cholesky` over the rows. -/
def choleskyOuter (a : Mat) (n : ℕ) : List ℕ → List ℚ → Except Error (List ℚ)
  | [], d => .ok d
  | i :: is, d =>
      match choleskyInner a n i (List.range n) d with
      | .error e => .error e
      | .ok d' => choleskyOuter a n is d'

/-- `cholesky` on an `n × n` matrix, returning the flat row-major buffer
`new_data` of the lower-triangular factor. -/
def cholesky (a : Mat) (n : ℕ) : Except Error (List ℚ) :=
  choleskyOuter a n (List.range n) []

/-- Modelled from the spec: `utils::dot` (external collaborator, §6: "dot
product of two equal-length sequences"). -/
def dot (xs ys : List ℚ) : ℚ :=
  (List.zipWith (fun x y => x * y) xs ys).sum

/-- `Float::signum` on exact values: `-1` for negatives, `1` otherwise
(Rust's `signum` returns `1.0` on `+0.0`, and the single rational zero
models positive zero). -/
def signumQ (x : ℚ) : ℚ := if x < 0 then -1 else 1

/-- The `denom` local of `make_householder`:
`column[0] + column[0].signum() * utils::dot(column, column).sqrt()`. -/
def hhAlpha (column : List ℚ) : ℚ :=
  column.headD 0 + signumQ (column.headD 0) * ratSqrt (dot column column)

/-- The `v` local of `make_householder`: the column divided by `denom`,
with the first element then fixed to `1`. -/
def hhV (column : List ℚ) : List ℚ :=
  (column.map (fun x => x / hhAlpha column)).set 0 1

/-- `make_householder` on a column: errors `InvalidArg` on an empty column;
computes `denom = x₀ + signum(x₀) · √(xᵗx)`, errors `DecompFailure` when it
is zero; otherwise normalizes `v = x / denom`, forces `v₀ = 1`, and returns
the reflector `I - (v vᵗ) · (2 / vᵗv)` as a `column.length`-square matrix. -/
def make_householder (column : List ℚ) : Except Error Mat :=
  if column.length = 0 then
    .error ⟨ErrorKind.InvalidArg, "Column for householder transform cannot be empty."⟩
  else if hhAlpha column = 0 then
    .error ⟨ErrorKind.DecompFailure,
      "Cannot produce househoulder transform from column as first entry is 0."⟩
  else
    .ok (fun j k => (if j = k then 1 else 0) -
      (hhV column).getD j 0 * (hhV column).getD k 0 * (2 / dot (hhV column) (hhV column)))

/-- The `tr` local of `direct_2_by_2_eigenvalues`: `data[0] + data[3]` in
row-major iteration order. -/
def tr2 (m : Mat) : ℚ := m 0 0 + m 1 1

/-- The `det` local of `direct_2_by_2_eigenvalues`:
`data[0]*data[3] - data[1]*data[2]`. -/
def det2 (m : Mat) : ℚ := m 0 0 * m 1 1 - m 0 1 * m 1 0

/-- The `discr` local of `direct_2_by_2_eigenvalues`:
`tr*tr - four*det` with `four = two + two`. -/
def discr2 (m : Mat) : ℚ := tr2 m * tr2 m - 4 * det2 m

/-- `direct_2_by_2_eigenvalues`: the four entries in row-major iteration
order, the quadratic formula on `λ² - tr·λ + det`, failing with
`DecompFailure` on a negative discriminant. -/
def direct_2_by_2_eigenvalues (m : Mat) : Except Error (List ℚ) :=
  if discr2 m < 0 then
    .error ⟨ErrorKind.DecompFailure,
      "Matrix has complex eigenvalues. Currently unsupported, sorry!"⟩
  else .ok [(tr2 m - ratSqrt (discr2 m)) / 2, (tr2 m + ratSqrt (discr2 m)) / 2]

/-- The error `qr_decomp` returns when a reflector build fails. -/
def qrErr : Error := ⟨ErrorKind.DecompFailure, "Cannot compute QR decomposition."⟩

/-- The column loop of `qr_decomp` on an `m × n` matrix, threading `(q, r)`.
Fatal panics are modelled by `none`: the `m - i` underflow, and the
`MatrixSlice::from_matrix` bounds assertion `i + 1 ≤ n` for the `1`-column
slice at `[i, i]` (the row bound `i + (m - i) ≤ m` holds trivially).  A
failed reflector build returns `Err(qrErr)`.  The reflector is embedded
block-diagonally: identity rows above `i`, `i` zero columns then the
reflector in rows `i..m`. -/
def qrLoop (m n : ℕ) : List ℕ → Mat × Mat → Option (Except Error (Mat × Mat))
  | [], st => some (.ok st)
  | i :: is, (q, r) =>
      if m < i then none
      else if n < i + 1 then none
      else
        match make_householder ((List.range (m - i)).map (fun dj => r (i + dj) i)) with
        | .error _ => some (.error qrErr)
        | .ok hh =>
            let h : Mat := fun j k =>
              if j < i then (if j = k then 1 else 0)
              else if k < i then 0 else hh (j - i) (k - i)
            qrLoop m n is (matMulF m q h, matMulF m h r)

/-- `qr_decomp` on an `m × n` matrix: `q = identity(m)`, `r = self`, and a
loop over the first `n - (if m == n then 1 else 0)` columns.  The loop-bound
subtraction is `usize` arithmetic: it panics (`none`) when it underflows,
which happens exactly for the `0 × 0` matrix. -/
def qr_decomp (m n : ℕ) (a : Mat) : Option (Except Error (Mat × Mat)) :=
  if n < (if m = n then 1 else 0) then none
  else qrLoop m n (List.range (n - (if m = n then 1 else 0))) (idMat, a)

/-- `T::min_positive_value()` for `f64`: `2^(-1022)`, the smallest positive
normal double. -/
def minPositiveValue : ℚ := 1 / 2 ^ 1022

/-- The state threaded through the SVD convergence scan: the converged
trailing-block counter `q`, the `on_lower` flag, the middle-block start `p`,
the `on_middle` flag, and the bidiagonal matrix `b`. -/
structure ScanState where
  q : ℕ
  onLower : Bool
  p : ℕ
  onMiddle : Bool
  b : Mat

/-- One pass of the SVD convergence scan (`for i in (0..n-1).rev()`), as in
the source: `b_sup_diag = |b[i, i+1]|`, `diag_abs_sum =
min_positive_value · (|b[i,i]| + b[i+1,i+1])` — note the second diagonal
entry is *not* taken in absolute value — and the entry is hard-set to zero
when `b_sup_diag ≤ diag_abs_sum`, updating `q`/`p` and the block flags. -/
def svdScanLoop : List ℕ → ScanState → ScanState
  | [], st => st
  | i :: is, st =>
      let bSup := |st.b i (i + 1)|
      let thresh := minPositiveValue * (|st.b i i| + st.b (i + 1) (i + 1))
      if bSup ≤ thresh then
        let st1 :=
          if st.onLower then { st with q := st.q + 1 }
          else if st.onMiddle then { st with onMiddle := false, p := i + 1 }
          else st
        svdScanLoop is { st1 with b := updF st1.b i (i + 1) 0 }
      else
        svdScanLoop is (if st.onLower then { st with onMiddle := true, onLower := false } else st)

/-- The SVD convergence scan over the super-diagonal of an `n × n`
bidiagonal matrix, from the bottom up. -/
def svdScan (n : ℕ) (b : Mat) : ScanState :=
  svdScanLoop ((List.range (n - 1)).reverse) ⟨0, true, 0, false, b⟩

/-- Positive definiteness of the `n × n` window of `a`:
`vᵗ a v > 0` for every vector `v` that is non-zero on `[0, n)`. -/
def IsPosDef (a : Mat) (n : ℕ) : Prop :=
  ∀ v : Vec, (∃ i, i < n ∧ v i ≠ 0) →
    0 < sumRange n (fun i => sumRange n (fun j => v i * a i j * v j))

/-- The `n × n` window of an embedded matrix as a Mathlib matrix, for
relating the `det` embedding to the mathematical determinant. -/
def toFinMatrix (a : Mat) (n : ℕ) : Matrix (Fin n) (Fin n) ℚ :=
  Matrix.of fun i j => a i.val j.val

/-! ## Basic lemmas about the accumulation sums -/

theorem sumRange_zero (g : ℕ → ℚ) : sumRange 0 g = 0 := rfl

theorem sumRange_succ (m : ℕ) (g : ℕ → ℚ) :
    sumRange (m + 1) g = sumRange m g + g m := by
  simp [sumRange, List.range_succ]

theorem sumRange_congr {m : ℕ} {g h : ℕ → ℚ} (he : ∀ k, k < m → g k = h k) :
    sumRange m g = sumRange m h := by
  induction m with
  | zero => rfl
  | succ m ih =>
      rw [sumRange_succ, sumRange_succ, ih (fun k hk => he k (Nat.lt_succ_of_lt hk)),
        he m (Nat.lt_succ_self m)]

theorem sumRange_eq_finset (m : ℕ) (g : ℕ → ℚ) :
    sumRange m g = ∑ k ∈ Finset.range m, g k := by
  induction m with
  | zero => rfl
  | succ m ih => rw [sumRange_succ, Finset.sum_range_succ, ih]

theorem sumRange_cut {m n : ℕ} {g : ℕ → ℚ} (hmn : m ≤ n)
    (hz : ∀ k, m ≤ k → k < n → g k = 0) : sumRange n g = sumRange m g := by
  induction n with
  | zero =>
      have hm : m = 0 := Nat.le_zero.mp hmn
      rw [hm]
  | succ n ih =>
      rcases Nat.lt_or_ge m (n + 1) with h | h
      · have hm : m ≤ n := by omega
        rw [sumRange_succ, hz n hm (Nat.lt_succ_self n), add_zero]
        exact ih hm (fun k hk1 hk2 => hz k hk1 (by omega))
      · have hm : m = n + 1 := by omega
        rw [hm]

/-! ## C10: the pivot loop produces a permutation matrix -/

/-- A row (or column) of length `n` has exactly one entry equal to `1` and
all other entries `0`. -/
def ExactlyOneOne (row : ℕ → ℚ) (n : ℕ) : Prop :=
  ∃ k, k < n ∧ row k = 1 ∧ ∀ k', k' < n → k' ≠ k → row k' = 0

/-- `P` restricted to its `n × n` window is a permutation matrix: exactly
one entry equal to `1` in every row and every column, all others `0`. -/
def IsPermMatrix (P : Mat) (n : ℕ) : Prop :=
  (∀ j, j < n → ExactlyOneOne (fun k => P j k) n) ∧
  (∀ k, k < n → ExactlyOneOne (fun j => P j k) n)

/-- The row that row `j` of `swapRows P i r` reads from `P`. -/
def swapIdx (i r j : ℕ) : ℕ := if j = i then r else if j = r then i else j

theorem swapIdx_lt {n i r : ℕ} (hi : i < n) (hr : r < n) {j : ℕ} (hj : j < n) :
    swapIdx i r j < n := by
  unfold swapIdx; split_ifs <;> omega

theorem swapIdx_invol (i r j : ℕ) : swapIdx i r (swapIdx i r j) = j := by
  unfold swapIdx; split_ifs <;> omega

theorem swapRows_read (P : Mat) (i r j k : ℕ) :
    swapRows P i r j k = P (swapIdx i r j) k := by
  unfold swapRows swapIdx; split_ifs <;> rfl

theorem idMat_isPerm (n : ℕ) : IsPermMatrix idMat n := by
  constructor
  · intro j hj
    refine ⟨j, hj, ?_, ?_⟩
    · show idMat j j = 1
      unfold idMat; rw [if_pos rfl]
    · intro k' _ hne
      show idMat j k' = 0
      unfold idMat; rw [if_neg (fun h => hne h.symm)]
  · intro k hk
    refine ⟨k, hk, ?_, ?_⟩
    · show idMat k k = 1
      unfold idMat; rw [if_pos rfl]
    · intro j' _ hne
      show idMat j' k = 0
      unfold idMat; rw [if_neg hne]

theorem swapRows_isPerm {P : Mat} {n i r : ℕ} (hi : i < n) (hr : r < n)
    (h : IsPermMatrix P n) : IsPermMatrix (swapRows P i r) n := by
  obtain ⟨hrow, hcol⟩ := h
  constructor
  · intro j hj
    obtain ⟨k, hk, h1, h0⟩ := hrow (swapIdx i r j) (swapIdx_lt hi hr hj)
    refine ⟨k, hk, ?_, fun k' hk' hne => ?_⟩
    · show swapRows P i r j k = 1
      rw [swapRows_read]; exact h1
    · show swapRows P i r j k' = 0
      rw [swapRows_read]; exact h0 k' hk' hne
  · intro k hk
    obtain ⟨j0, hj0, h1, h0⟩ := hcol k hk
    refine ⟨swapIdx i r j0, swapIdx_lt hi hr hj0, ?_, fun j' hj' hne => ?_⟩
    · show swapRows P i r (swapIdx i r j0) k = 1
      rw [swapRows_read, swapIdx_invol]; exact h1
    · show swapRows P i r j' k = 0
      rw [swapRows_read]
      refine h0 (swapIdx i r j') (swapIdx_lt hi hr hj') (fun heq => hne ?_)
      rw [← swapIdx_invol i r j', heq]

theorem argmaxAux_lt (l : List ℚ) : ∀ (i : ℕ) (best : ℕ × ℚ),
    best.1 < i → (argmaxAux l i best).1 < i + l.length := by
  induction l with
  | nil => intro i best h; simpa [argmaxAux] using h
  | cons y rest ih =>
      intro i best h
      simp only [argmaxAux]
      by_cases hy : best.2 < y
      · simp only [hy, if_true]
        have hres := ih (i + 1) (i, y) (Nat.lt_succ_self i)
        simp only [List.length_cons]
        omega
      · simp only [hy, if_false]
        have hres := ih (i + 1) best (Nat.lt_succ_of_lt h)
        simp only [List.length_cons]
        omega

theorem argmax_lt {xs : List ℚ} (h : xs ≠ []) : (argmax xs).1 < xs.length := by
  cases xs with
  | nil => exact absurd rfl h
  | cons x rest =>
      have hres := argmaxAux_lt rest 1 (0, x) Nat.one_pos
      simp only [argmax, List.length_cons]
      omega

theorem lupPStep_isPerm (a : Mat) (n : ℕ) {P : Mat} {i : ℕ} (hi : i < n)
    (h : IsPermMatrix P n) : IsPermMatrix (lupPStep a n P i) n := by
  have hne : ((List.range (n - i)).map (fun dj => a (i + dj) i)) ≠ [] := by
    simp only [ne_eq, List.map_eq_nil_iff, List.range_eq_nil]
    omega
  have hlt : (argmax ((List.range (n - i)).map (fun dj => a (i + dj) i))).1 < n := by
    have h1 := argmax_lt hne
    simp only [List.length_map, List.length_range] at h1
    omega
  simp only [lupPStep]
  split_ifs with hrow
  · exact swapRows_isPerm hi hlt h
  · exact h

/-- C10: for every square input, the permutation matrix `P` computed by the
pivot loop of `lup_decomp` has exactly one entry equal to `1` in every row
and every column of its `n × n` window and all other entries `0` — even
though each pivot swap exchanges row `i` with the argmax index taken
relative to the scanned sub-slice. -/
theorem lupP_is_permutation (a : Mat) (n : ℕ) : IsPermMatrix (lupP a n) n := by
  unfold lupP
  have : ∀ (l : List ℕ) (P : Mat), (∀ i ∈ l, i < n) → IsPermMatrix P n →
      IsPermMatrix (l.foldl (lupPStep a n) P) n := by
    intro l
    induction l with
    | nil => intro P _ h; exact h
    | cons i is ih =>
        intro P hmem h
        exact ih _ (fun j hj => hmem j (List.mem_cons_of_mem i hj))
          (lupPStep_isPerm a n (hmem i (List.mem_cons_self i is)) h)
  exact this (List.range n) idMat (fun i hi => List.mem_range.mp hi) (idMat_isPerm n)

/-! ## C1/C9: the Doolittle loop invariant of `lup_decomp` -/

/-- The invariant of the outer Doolittle loop after the columns `< i` have
been processed: `u` is zero on columns `≥ i` and strictly below the
diagonal, `l` is zero on columns `≥ i` and strictly above the diagonal, the
processed pivots are non-zero, and the processed columns satisfy the
equations computed by the two inner loops. -/
def LupInv (a2 : Mat) (n i : ℕ) (l u : Mat) : Prop :=
  (∀ c j, i ≤ c → u j c = 0) ∧
  (∀ c j, c < j → u j c = 0) ∧
  (∀ c j, i ≤ c → l j c = 0) ∧
  (∀ c j, j < c → l j c = 0) ∧
  (∀ c, c < i → u c c ≠ 0) ∧
  (∀ c j, c < i → j ≤ c → u j c = a2 j c - sumRange j (fun k => l j k * u k c)) ∧
  (∀ c j, c < i → c ≤ j → j < n →
    l j c = (a2 j c - sumRange c (fun k => l j k * u k c)) / u c c)

theorem updF_ne {f : Mat} {r c j k : ℕ} {x : ℚ} (h : ¬(j = r ∧ k = c)) :
    updF f r c x j k = f j k := by
  unfold updF; rw [if_neg h]

theorem updF_eq (f : Mat) (r c : ℕ) (x : ℚ) : updF f r c x r c = x := by
  unfold updF; rw [if_pos ⟨rfl, rfl⟩]

/-- Specification of the first inner loop (`for j in 0..i+1`, writing
column `i` of `u`), generalized over the remaining index range: other
columns are untouched, rows not yet processed stay at their value, and
processed rows satisfy the column equation. -/
theorem lupInner1_go (a2 l1 : Mat) (i : ℕ) :
    ∀ (cnt t : ℕ) (u : Mat),
    (∀ j, t ≤ j → u j i = 0) →
    (∀ j, j < t → u j i = a2 j i - sumRange j (fun k => l1 j k * u k i)) →
    (∀ j c, c ≠ i → (lupInner1 a2 l1 i (List.range' t cnt) u) j c = u j c) ∧
    (∀ j, t + cnt ≤ j → (lupInner1 a2 l1 i (List.range' t cnt) u) j i = 0) ∧
    (∀ j, j < t + cnt → (lupInner1 a2 l1 i (List.range' t cnt) u) j i =
      a2 j i - sumRange j (fun k => l1 j k * (lupInner1 a2 l1 i (List.range' t cnt) u) k i)) := by
  intro cnt
  induction cnt with
  | zero =>
      intro t u h0 heq
      have hr : lupInner1 a2 l1 i (List.range' t 0) u = u := rfl
      rw [hr]
      exact ⟨fun _ _ _ => rfl, fun j hj => h0 j (by omega), fun j hj => heq j (by omega)⟩
  | succ cnt ih =>
      intro t u h0 heq
      rw [List.range'_succ]
      simp only [lupInner1]
      set u' := updF u t i (a2 t i - sumRange t (fun k => l1 t k * u k i)) with hu'
      have hne : ∀ j c, ¬(j = t ∧ c = i) → u' j c = u j c := fun j c h => updF_ne h
      have h0' : ∀ j, t + 1 ≤ j → u' j i = 0 := by
        intro j hj
        rw [hne j i (fun hc => absurd hc.1 (by omega))]
        exact h0 j (by omega)
      have heq' : ∀ j, j < t + 1 → u' j i = a2 j i - sumRange j (fun k => l1 j k * u' k i) := by
        intro j hj
        have hs : sumRange j (fun k => l1 j k * u' k i) = sumRange j (fun k => l1 j k * u k i) := by
          apply sumRange_congr
          intro k hk
          rw [hne k i (fun hc => absurd hc.1 (by omega))]
        rw [hs]
        rcases Nat.lt_or_ge j t with hlt | hge
        · rw [hne j i (fun hc => absurd hc.1 (by omega))]
          exact heq j hlt
        · have hjt : j = t := by omega
          subst hjt
          rw [hu']
          exact updF_eq _ _ _ _
      obtain ⟨ca, cb, cc⟩ := ih (t + 1) u' h0' heq'
      refine ⟨?_, ?_, ?_⟩
      · intro j c hc
        rw [ca j c hc, hne j c (fun h => hc h.2)]
      · intro j hj
        exact cb j (by omega)
      · intro j hj
        exact cc j (by omega)

/-- When the pivot `u[[i,i]]` is zero, the second inner loop fails
immediately with the LUP error. -/
theorem lupInner2_err (a2 u1 : Mat) (i : ℕ) (hu : u1 i i = 0) (t cnt : ℕ)
    (hc : 0 < cnt) (lc : Mat) :
    lupInner2 a2 u1 i (List.range' t cnt) lc = .error lupErr := by
  obtain ⟨m, rfl⟩ : ∃ m, cnt = m + 1 := ⟨cnt - 1, by omega⟩
  rw [List.range'_succ]
  simp only [lupInner2]
  rw [if_pos hu]

/-- Specification of the second inner loop (`for j in i..n`, writing column
`i` of `l`) when the pivot is non-zero: it succeeds, touches only column
`i` at rows in the processed range, and the processed rows satisfy the
division equation. -/
theorem lupInner2_go (a2 u1 : Mat) (i : ℕ) (hu : u1 i i ≠ 0) :
    ∀ (cnt t : ℕ) (lc : Mat), i ≤ t →
    (∀ j, i ≤ j → j < t → lc j i = (a2 j i - sumRange i (fun k => lc j k * u1 k i)) / u1 i i) →
    ∃ l2, lupInner2 a2 u1 i (List.range' t cnt) lc = .ok l2 ∧
      (∀ j c, c ≠ i → l2 j c = lc j c) ∧
      (∀ j, j < t → l2 j i = lc j i) ∧
      (∀ j, t + cnt ≤ j → l2 j i = lc j i) ∧
      (∀ j, i ≤ j → j < t + cnt →
        l2 j i = (a2 j i - sumRange i (fun k => l2 j k * u1 k i)) / u1 i i) := by
  intro cnt
  induction cnt with
  | zero =>
      intro t lc hit heq
      refine ⟨lc, rfl, fun _ _ _ => rfl, fun _ _ => rfl, fun _ _ => rfl, ?_⟩
      intro j hij hjt
      exact heq j hij (by omega)
  | succ cnt ih =>
      intro t lc hit heq
      rw [List.range'_succ]
      simp only [lupInner2]
      rw [if_neg hu]
      set lc' := updF lc t i ((a2 t i - sumRange i (fun k => lc t k * u1 k i)) / u1 i i) with hlc'
      have hne : ∀ j c, ¬(j = t ∧ c = i) → lc' j c = lc j c := fun j c h => updF_ne h
      have heq' : ∀ j, i ≤ j → j < t + 1 →
          lc' j i = (a2 j i - sumRange i (fun k => lc' j k * u1 k i)) / u1 i i := by
        intro j hij hjt
        have hs : sumRange i (fun k => lc' j k * u1 k i) =
            sumRange i (fun k => lc j k * u1 k i) := by
          apply sumRange_congr
          intro k hk
          rw [hne j k (fun hc => absurd hc.2 (by omega))]
        rw [hs]
        rcases Nat.lt_or_ge j t with hlt | hge
        · rw [hne j i (fun hc => absurd hc.1 (by omega))]
          exact heq j hij hlt
        · have hjt' : j = t := by omega
          subst hjt'
          rw [hlc']
          exact updF_eq _ _ _ _
      obtain ⟨l2, hrun, ca, cb, cc, cd⟩ := ih (t + 1) lc' (by omega) heq'
      refine ⟨l2, hrun, ?_, ?_, ?_, ?_⟩
      · intro j c hc
        rw [ca j c hc, hne j c (fun h => hc h.2)]
      · intro j hj
        rw [cb j (by omega), hne j i (fun h => absurd h.1 (by omega))]
      · intro j hj
        rw [cc j (by omega), hne j i (fun h => absurd h.1 (by omega))]
      · intro j hij hjt
        exact cd j hij (by omega)

theorem LupInv_init (a2 : Mat) (n : ℕ) :
    LupInv a2 n 0 (fun _ _ => 0) (fun _ _ => 0) := by
  refine ⟨fun _ _ _ => rfl, fun _ _ _ => rfl, fun _ _ _ => rfl, fun _ _ _ => rfl, ?_, ?_, ?_⟩
  · intro c hc
    exact absurd hc (Nat.not_lt_zero c)
  · intro c j hc
    exact absurd hc (Nat.not_lt_zero c)
  · intro c j hc
    exact absurd hc (Nat.not_lt_zero c)

/-- The outer Doolittle loop preserves the invariant: if it returns `Ok`
starting in a state satisfying `LupInv` at `t`, the final state satisfies
`LupInv` at `t + cnt`. -/
theorem lupOuterLoop_ok (a2 : Mat) (n : ℕ) :
    ∀ (cnt t : ℕ) (l u l' u' : Mat), t + cnt ≤ n →
    LupInv a2 n t l u →
    lupOuterLoop a2 n (List.range' t cnt) (l, u) = .ok (l', u') →
    LupInv a2 n (t + cnt) l' u' := by
  intro cnt
  induction cnt with
  | zero =>
      intro t l u l' u' hle hInv hrun
      have hr : lupOuterLoop a2 n (List.range' t 0) (l, u) = Except.ok (l, u) := rfl
      rw [hr] at hrun
      injection hrun with h
      obtain ⟨rfl, rfl⟩ : l = l' ∧ u = u' :=
        ⟨congrArg Prod.fst h, congrArg Prod.snd h⟩
      exact hInv
  | succ cnt ih =>
      intro t l u l' u' hle hInv hrun
      have hInv' := hInv
      obtain ⟨h1, h2, h3, h4, h5, h6, h7⟩ := hInv'
      rw [List.range'_succ] at hrun
      simp only [lupOuterLoop] at hrun
      set l1 := updF l t t 1 with hl1
      set u1 := lupInner1 a2 l1 t (List.range (t + 1)) u with hu1def
      have hll : ∀ j c, ¬(j = t ∧ c = t) → l1 j c = l j c := fun j c h => updF_ne h
      have hltt : l1 t t = 1 := updF_eq _ _ _ _
      have hrange : List.range (t + 1) = List.range' 0 (t + 1) := List.range_eq_range' _
      obtain ⟨ua, ub, uc⟩ := lupInner1_go a2 l1 t (t + 1) 0 u
        (fun j _ => h1 t j le_rfl) (fun j hj => absurd hj (by omega))
      rw [← hrange, ← hu1def] at ua ub uc
      rcases hinner : lupInner2 a2 u1 t (List.range' t (n - t)) l1 with e | l2
      · rw [hinner] at hrun
        exact Except.noConfusion hrun
      rw [hinner] at hrun
      have hpiv : u1 t t ≠ 0 := by
        intro h0
        rw [lupInner2_err a2 u1 t h0 t (n - t) (by omega) l1] at hinner
        exact Except.noConfusion hinner
      obtain ⟨l2', hrun2, la, lb, lc2, ld⟩ := lupInner2_go a2 u1 t hpiv (n - t) t l1
        le_rfl (fun j hij hjt => absurd hjt (by omega))
      rw [hinner] at hrun2
      injection hrun2 with hl2
      subst hl2
      have hInvNext : LupInv a2 n (t + 1) l2 u1 := by
        refine ⟨?_, ?_, ?_, ?_, ?_, ?_, ?_⟩
        · intro c j hc
          rw [ua j c (by omega)]
          exact h1 c j (by omega)
        · intro c j hc
          by_cases hct : c = t
          · rw [hct]
            exact ub j (by omega)
          · rw [ua j c hct]
            exact h2 c j hc
        · intro c j hc
          rw [la j c (by omega), hll j c (fun h => by omega)]
          exact h3 c j (by omega)
        · intro c j hc
          by_cases hct : c = t
          · rw [hct]
            rw [lb j (by omega), hll j t (fun h => by omega)]
            exact h4 t j (by omega)
          · rw [la j c hct, hll j c (fun h => hct h.2)]
            exact h4 c j hc
        · intro c hc
          by_cases hct : c = t
          · rw [hct]
            exact hpiv
          · rw [ua c c hct]
            exact h5 c (by omega)
        · intro c j hc hjc
          by_cases hct : c = t
          · rw [hct]
            rw [uc j (by omega)]
            congr 1
            apply sumRange_congr
            intro k hk
            rw [la j k (by omega)]
          · have hct' : c < t := by omega
            rw [ua j c hct]
            rw [h6 c j hct' hjc]
            congr 1
            apply sumRange_congr
            intro k hk
            rw [la j k (by omega), hll j k (fun h => by omega), ua k c hct]
        · intro c j hc hcj hjn
          by_cases hct : c = t
          · rw [hct]
            exact ld j (by omega) (by omega)
          · have hct' : c < t := by omega
            rw [la j c hct, hll j c (fun h => hct h.2)]
            rw [h7 c j hct' hcj hjn]
            rw [ua c c hct]
            congr 1
            congr 1
            apply sumRange_congr
            intro k hk
            rw [la j k (by omega), hll j k (fun h => by omega), ua k c hct]
      have hfin := ih (t + 1) l2 u1 l' u' (by omega) hInvNext hrun
      have hx : t + (cnt + 1) = t + 1 + cnt := by omega
      rw [hx]
      exact hfin

theorem lupInv_diag_one {a2 : Mat} {n : ℕ} {l u : Mat} (h : LupInv a2 n n l u)
    {j : ℕ} (hj : j < n) : l j j = 1 := by
  obtain ⟨h1, h2, h3, h4, h5, h6, h7⟩ := h
  have e7 := h7 j j hj le_rfl hj
  have e6 := h6 j j hj le_rfl
  rw [e7, ← e6, div_self (h5 j hj)]

/-- The heart of C1: the final invariant implies `L·U = A₂` exactly, on the
`n × n` window. -/
theorem lupInv_reconstruct {a2 : Mat} {n : ℕ} {l u : Mat} (h : LupInv a2 n n l u)
    {j i : ℕ} (hj : j < n) (hi : i < n) : matMulF n l u j i = a2 j i := by
  have hd := lupInv_diag_one h hj
  obtain ⟨h1, h2, h3, h4, h5, h6, h7⟩ := h
  show sumRange n (fun k => l j k * u k i) = a2 j i
  rcases le_or_lt j i with hji | hij
  · have hcut : sumRange n (fun k => l j k * u k i) = sumRange (j + 1) (fun k => l j k * u k i) :=
      sumRange_cut (by omega) (fun k hk1 hk2 => by rw [h4 k j (by omega), zero_mul])
    rw [hcut, sumRange_succ, hd, one_mul]
    rw [h6 i j hi hji]
    ring
  · have hcut : sumRange n (fun k => l j k * u k i) = sumRange (i + 1) (fun k => l j k * u k i) :=
      sumRange_cut (by omega) (fun k hk1 hk2 => by rw [h2 i k (by omega), mul_zero])
    rw [hcut, sumRange_succ]
    rw [h7 i j hi (by omega) hj, div_mul_cancel₀ _ (h5 i hi)]
    ring

/-- Extracting the final invariant from a successful `lup_decomp`. -/
theorem lup_decomp_ok_inv (a : Mat) (n : ℕ) (l u p : Mat)
    (h : lup_decomp a n = Except.ok (l, u, p)) :
    p = lupP a n ∧ LupInv (matMulF n (lupP a n) a) n n l u := by
  simp only [lup_decomp] at h
  rcases hrun : lupOuterLoop (matMulF n (lupP a n) a) n (List.range n)
      (fun _ _ => 0, fun _ _ => 0) with e | ⟨l0, u0⟩
  · rw [hrun] at h
    exact Except.noConfusion h
  · rw [hrun] at h
    have h' : (Except.ok (l0, u0, lupP a n) : Except Error (Mat × Mat × Mat)) =
        Except.ok (l, u, p) := h
    injection h' with hpair
    obtain ⟨rfl, hpair2⟩ : l0 = l ∧ (u0, lupP a n) = (u, p) :=
      ⟨congrArg Prod.fst hpair, congrArg Prod.snd hpair⟩
    obtain ⟨rfl, hp⟩ : u0 = u ∧ lupP a n = p :=
      ⟨congrArg Prod.fst hpair2, congrArg Prod.snd hpair2⟩
    refine ⟨hp.symm, ?_⟩
    have hres := lupOuterLoop_ok (matMulF n (lupP a n) a) n n 0
      (fun _ _ => 0) (fun _ _ => 0) _ _ (by omega) (LupInv_init _ n)
      (by rw [← List.range_eq_range']; exact hrun)
    have h0n : 0 + n = n := Nat.zero_add n
    rw [h0n] at hres
    exact hres

/-- C1: for every square matrix `A` on which `lup_decomp` returns
`Ok((L, U, P))`, the reconstruction holds: every entry of `L·U` equals the
corresponding entry of `P·A` within `1e-10` (in exact arithmetic they are
equal), `L` is unit lower-triangular (unit diagonal, zero above it) and `U`
is upper-triangular (zero below the diagonal), as produced by the Doolittle
recursion. -/
theorem lup_decomp_reconstruction (a : Mat) (n : ℕ) (l u p : Mat)
    (h : lup_decomp a n = Except.ok (l, u, p)) :
    (∀ j i, j < n → i < n → |matMulF n l u j i - matMulF n p a j i| ≤ 1 / 10 ^ 10) ∧
    (∀ j, j < n → l j j = 1) ∧ (∀ j k, j < k → l j k = 0) ∧ (∀ j k, k < j → u j k = 0) := by
  obtain ⟨hp, hInv⟩ := lup_decomp_ok_inv a n l u p h
  refine ⟨?_, ?_, ?_, ?_⟩
  · intro j i hj hi
    rw [hp, lupInv_reconstruct hInv hj hi, sub_self, abs_zero]
    norm_num
  · intro j hj
    exact lupInv_diag_one hInv hj
  · intro j k hjk
    exact hInv.2.2.2.1 k j hjk
  · intro j k hkj
    exact hInv.2.1 k j hkj

/-- Whether an `Except` value is `Ok`. -/
def isOkE {α : Type} (e : Except Error α) : Bool :=
  match e with
  | .ok _ => true
  | .error _ => false

/-- Witness for C1: `lup_decomp` succeeds on the 1×1 matrix `[[2]]` and the
reconstruction and triangularity hold there. -/
theorem lup_decomp_reconstruction_witness :
    ∃ l u p, lup_decomp (fun _ _ => 2) 1 = Except.ok (l, u, p) ∧
      |matMulF 1 l u 0 0 - matMulF 1 p (fun _ _ => 2) 0 0| ≤ 1 / 10 ^ 10 ∧ l 0 0 = 1 := by
  have hok : isOkE (lup_decomp (fun _ _ => 2) 1) = true := by
    norm_num [isOkE, lup_decomp, lupP, lupPStep, lupOuterLoop, lupInner1, lupInner2,
      argmax, argmaxAux, matMulF, sumRange, updF, idMat, swapRows, List.range_succ]
  rcases hm : lup_decomp (fun _ _ => 2) 1 with e | ⟨l, u, p⟩
  · rw [hm] at hok
    exact Bool.noConfusion hok
  · obtain ⟨hrec, hdiag, _, _⟩ := lup_decomp_reconstruction (fun _ _ => 2) 1 l u p hm
    exact ⟨l, u, p, rfl, hrec 0 0 Nat.one_pos Nat.one_pos, hdiag 0 Nat.one_pos⟩

/-! ## C9: a successful LUP decomposition makes `inverse` succeed -/

theorem forwardSubGo_ok (l : Mat) (b : Vec) :
    ∀ (js : List ℕ) (y : Vec), (∀ j ∈ js, l j j ≠ 0) →
    ∃ y', forwardSubGo l b js y = .ok y' := by
  intro js
  induction js with
  | nil => exact fun y _ => ⟨y, rfl⟩
  | cons j js ih =>
      intro y hne
      simp only [forwardSubGo]
      rw [if_neg (hne j (List.mem_cons_self j js))]
      exact ih _ (fun j' hj' => hne j' (List.mem_cons_of_mem j hj'))

theorem forward_substitution_ok (l : Mat) (b : Vec) (n : ℕ)
    (h : ∀ j, j < n → l j j ≠ 0) : ∃ y, forward_substitution l b n = .ok y :=
  forwardSubGo_ok l b (List.range n) _ (fun j hj => h j (List.mem_range.mp hj))

theorem backSubGo_ok (u : Mat) (b : Vec) (n : ℕ) :
    ∀ (js : List ℕ) (y : Vec), (∀ j ∈ js, u j j ≠ 0) →
    ∃ y', backSubGo u b n js y = .ok y' := by
  intro js
  induction js with
  | nil => exact fun y _ => ⟨y, rfl⟩
  | cons j js ih =>
      intro y hne
      simp only [backSubGo]
      rw [if_neg (hne j (List.mem_cons_self j js))]
      exact ih _ (fun j' hj' => hne j' (List.mem_cons_of_mem j hj'))

theorem back_substitution_ok (u : Mat) (b : Vec) (n : ℕ)
    (h : ∀ j, j < n → u j j ≠ 0) : ∃ y, back_substitution u b n = .ok y :=
  backSubGo_ok u b n ((List.range n).reverse) _
    (fun j hj => h j (List.mem_range.mp (List.mem_reverse.mp hj)))

theorem inverseCols_ok (l u p : Mat) (n : ℕ)
    (hl : ∀ j, j < n → l j j ≠ 0) (hu : ∀ j, j < n → u j j ≠ 0) :
    ∀ (is : List ℕ) (acc : Mat), ∃ m, inverseCols l u p n is acc = some (.ok m) := by
  intro is
  induction is with
  | nil => exact fun acc => ⟨fun j i => acc i j, rfl⟩
  | cons i is ih =>
      intro acc
      simp only [inverseCols]
      obtain ⟨y1, hy1⟩ := forward_substitution_ok l
        (matVecF n p (fun k => if k = i then 1 else 0)) n hl
      obtain ⟨y2, hy2⟩ := back_substitution_ok u y1 n hu
      simp only [hy1, hy2]
      exact ih _

theorem lupDiagProd_ne_zero (l u : Mat) :
    ∀ (js : List ℕ) (d : ℚ), d ≠ 0 → (∀ i ∈ js, l i i * u i i ≠ 0) →
    (js.foldl (fun d i => d * l i i * u i i) d) ≠ 0 := by
  intro js
  induction js with
  | nil => exact fun d hd _ => hd
  | cons i is ih =>
      intro d hd hne
      simp only [List.foldl_cons]
      refine ih _ ?_ (fun i' hi' => hne i' (List.mem_cons_of_mem i hi'))
      rw [mul_assoc]
      exact mul_ne_zero hd (hne i (List.mem_cons_self i is))

/-- C9: if `lup_decomp` succeeds on a square matrix then, in exact
arithmetic, every diagonal entry of the returned `U` is non-zero and every
diagonal entry of `L` is `1`; consequently the determinant product `d`
computed inside `inverse` is non-zero, so the "Matrix is singular and
cannot be inverted" branch and the substitution `expect` panics are
unreachable, and `inverse` returns `Ok`. -/
theorem lup_ok_pivots_inverse_ok (a : Mat) (n : ℕ) (l u p : Mat)
    (h : lup_decomp a n = Except.ok (l, u, p)) :
    (∀ i, i < n → u i i ≠ 0) ∧ (∀ i, i < n → l i i = 1) ∧
    (List.range n).foldl (fun d i => d * l i i * u i i) 1 ≠ 0 ∧
    ∃ m, inverse a n = some (Except.ok m) := by
  obtain ⟨hp, hInv⟩ := lup_decomp_ok_inv a n l u p h
  have hu : ∀ i, i < n → u i i ≠ 0 := fun i hi => hInv.2.2.2.2.1 i hi
  have hl1 : ∀ i, i < n → l i i = 1 := fun i hi => lupInv_diag_one hInv hi
  have hlne : ∀ i, i < n → l i i ≠ 0 := fun i hi => by
    rw [hl1 i hi]; exact one_ne_zero
  have hd : (List.range n).foldl (fun d i => d * l i i * u i i) 1 ≠ 0 :=
    lupDiagProd_ne_zero l u (List.range n) 1 one_ne_zero
      (fun i hi => mul_ne_zero (hlne i (List.mem_range.mp hi)) (hu i (List.mem_range.mp hi)))
  refine ⟨hu, hl1, hd, ?_⟩
  have hstep : inverse a n =
      (if (List.range n).foldl (fun d i => d * l i i * u i i) 1 = 0 then
        some (.error ⟨ErrorKind.DecompFailure, "Matrix is singular and cannot be inverted."⟩)
      else inverseCols l u p n (List.range n) (fun _ _ => 0)) := by
    simp only [inverse, h]
  rw [hstep, if_neg hd]
  exact inverseCols_ok l u p n hlne hu (List.range n) (fun _ _ => 0)

/-- Witness for C9: on the 1×1 matrix `[[3]]` the LUP decomposition
succeeds and `inverse` returns `Ok`. -/
theorem lup_ok_pivots_inverse_ok_witness :
    ∃ m, inverse (fun _ _ => 3) 1 = some (Except.ok m) := by
  have hok : isOkE (lup_decomp (fun _ _ => 3) 1) = true := by
    norm_num [isOkE, lup_decomp, lupP, lupPStep, lupOuterLoop, lupInner1, lupInner2,
      argmax, argmaxAux, matMulF, sumRange, updF, idMat, swapRows, List.range_succ]
  rcases hm : lup_decomp (fun _ _ => 3) 1 with e | ⟨l, u, p⟩
  · rw [hm] at hok
    exact Bool.noConfusion hok
  · exact (lup_ok_pivots_inverse_ok (fun _ _ => 3) 1 l u p hm).2.2.2

/-! ## C2: `solve` propagates inner errors unchanged (no `map_err`) -/

/-- C2 counterexample: on the singular 1×1 matrix `[[0]]` the LUP
sub-decomposition fails, and `solve` returns exactly that inner error —
same kind *and* same message — rather than an error rewritten at the solve
boundary. -/
theorem solve_unchanged_counterexample :
    solve (fun _ _ => 0) 1 (fun _ => 1) = .error lupErr ∧
    lup_decomp (fun _ _ => 0) 1 = .error lupErr := by
  have hlup : lup_decomp (fun _ _ => 0) 1 = .error lupErr := by
    norm_num [lup_decomp, lupP, lupPStep, lupOuterLoop, lupInner1, lupInner2,
      argmax, argmaxAux, matMulF, sumRange, updF, idMat, swapRows, List.range_succ]
  exact ⟨by simp only [solve, hlup], hlup⟩

/-- C2 amended: when the LUP sub-decomposition (or the forward-substitution
step) inside `solve` fails, `solve` returns the inner error *unchanged* —
both `try!`s propagate without `map_err` — and when both succeed it returns
whatever `back_substitution` returns, also unchanged. -/
theorem solve_propagates_inner_error (a : Mat) (n : ℕ) (y : Vec) :
    (∀ e, lup_decomp a n = .error e → solve a n y = .error e) ∧
    (∀ l u p, lup_decomp a n = .ok (l, u, p) →
      (∀ e, forward_substitution l (matVecF n p y) n = .error e →
        solve a n y = .error e) ∧
      (∀ b, forward_substitution l (matVecF n p y) n = .ok b →
        solve a n y = back_substitution u b n)) := by
  constructor
  · intro e h
    simp only [solve, h]
  · intro l u p h
    constructor
    · intro e hf
      simp only [solve, h, hf]
    · intro b hf
      simp only [solve, h, hf]

/-- Witness for the amended C2 at the singular 1×1 matrix `[[0]]`. -/
theorem solve_propagates_inner_error_witness :
    solve (fun _ _ => 0) 1 (fun _ => 1) = .error lupErr := by
  have hlup : lup_decomp (fun _ _ => 0) 1 = .error lupErr := by
    norm_num [lup_decomp, lupP, lupPStep, lupOuterLoop, lupInner1, lupInner2,
      argmax, argmaxAux, matMulF, sumRange, updF, idMat, swapRows, List.range_succ]
  exact (solve_propagates_inner_error (fun _ _ => 0) 1 (fun _ => 1)).1 lupErr hlup

/-! ## C3: `cholesky` on non-positive-definite matrices -/

theorem ratSqrt_zero : ratSqrt 0 = 0 := by
  simp only [ratSqrt]
  split_ifs with h
  · exact mul_self_eq_zero.mp h
  · rfl

theorem getD_replicate_zero (n idx : ℕ) : (List.replicate n (0:ℚ)).getD idx 0 = 0 := by
  induction n generalizing idx with
  | zero => rfl
  | succ n ih =>
      cases idx with
      | zero => rfl
      | succ idx => exact ih idx

/-- Row `0` of `cholesky` on the zero matrix pushes only zeros for the
strictly-above-diagonal entries `j > 0`. -/
theorem choleskyInner_row0_zeros (n : ℕ) :
    ∀ (js : List ℕ) (d : List ℚ), (∀ j ∈ js, 0 < j) →
    choleskyInner (fun _ _ => 0) n 0 js d = .ok (d ++ List.replicate js.length 0) := by
  intro js
  induction js with
  | nil =>
      intro d _
      simp [choleskyInner]
  | cons j js ih =>
      intro d hmem
      have hj : 0 < j := hmem j (List.mem_cons_self j js)
      simp only [choleskyInner]
      rw [if_pos hj]
      rw [ih (d ++ [0]) (fun j' h' => hmem j' (List.mem_cons_of_mem j h'))]
      simp [List.replicate_succ, List.append_assoc]

theorem cholesky_zero_row0 (m : ℕ) :
    choleskyInner (fun _ _ => 0) (m + 2) 0 (List.range (m + 2)) [] =
      .ok (List.replicate (m + 2) 0) := by
  have hr : List.range (m + 2) = 0 :: List.range' 1 (m + 1) := by
    rw [List.range_eq_range', List.range'_succ]
  rw [hr]
  have h1 : choleskyInner (fun _ _ => 0) (m + 2) 0 (0 :: List.range' 1 (m + 1)) [] =
      choleskyInner (fun _ _ => 0) (m + 2) 0 (List.range' 1 (m + 1)) [0] := by
    simp [choleskyInner, sumRange, ratSqrt_zero]
  rw [h1, choleskyInner_row0_zeros (m + 2) _ [0] (fun j hj => by
    have hm := List.mem_range'_1.mp hj
    omega)]
  simp [List.replicate_succ]

theorem cholesky_zero_row1 (m : ℕ) :
    choleskyInner (fun _ _ => 0) (m + 2) 1 (List.range (m + 2))
      (List.replicate (m + 2) 0) = .error pdErr := by
  have hr : List.range (m + 2) = 0 :: List.range' 1 (m + 1) := by
    rw [List.range_eq_range', List.range'_succ]
  rw [hr]
  simp [choleskyInner, getD_replicate_zero]

/-- On the all-zero `n × n` matrix with `n ≥ 2`, `cholesky` reaches the
division by the zero diagonal entry in row `1` and fails. -/
theorem cholesky_zero_matrix_fails (n : ℕ) (hn : 2 ≤ n) :
    cholesky (fun _ _ => 0) n = .error pdErr := by
  obtain ⟨m, rfl⟩ : ∃ m, n = m + 2 := ⟨n - 2, by omega⟩
  have hr : List.range (m + 2) = 0 :: 1 :: List.range' 2 m := by
    rw [List.range_eq_range', List.range'_succ, List.range'_succ]
  simp only [cholesky]
  rw [hr]
  simp only [choleskyOuter, cholesky_zero_row0, cholesky_zero_row1]

/-- C3 counterexample: the 1×1 zero matrix `[[0]]` is square and not
positive definite, yet `cholesky` returns `Ok([[0]])` — for `n = 1` the
division branch that produces `DecompFailure` is unreachable. -/
theorem cholesky_zero_1x1_counterexample :
    cholesky (fun _ _ => 0) 1 = .ok [0] ∧ ¬ IsPosDef (fun _ _ => 0) 1 := by
  constructor
  · simp [cholesky, choleskyOuter, choleskyInner, sumRange, ratSqrt_zero]
  · intro h
    have hv := h (fun _ => 1) ⟨0, Nat.one_pos, one_ne_zero⟩
    norm_num [sumRange] at hv

/-- C3 amended: `cholesky` returns `Ok` on *every* 1×1 matrix (the
division branch is unreachable for `n = 1`, so no non-positive-definite
1×1 input can fail), while the all-zero `n × n` matrix with `n ≥ 2` fails
with `DecompFailure` at the first division by a zero diagonal. -/
theorem cholesky_1x1_ok_and_zero_fails :
    (∀ a : Mat, cholesky a 1 = .ok [ratSqrt (a 0 0)]) ∧
    (∀ n, 2 ≤ n → cholesky (fun _ _ => 0) n = .error pdErr) := by
  constructor
  · intro a
    simp [cholesky, choleskyOuter, choleskyInner, sumRange]
  · exact cholesky_zero_matrix_fails

/-- Witness for the amended C3: the 1×1 matrix `[[-1]]` (not positive
definite) yields `Ok`, and the 2×2 zero matrix fails. -/
theorem cholesky_1x1_ok_and_zero_fails_witness :
    cholesky (fun _ _ => -1) 1 = .ok [ratSqrt (-1)] ∧
    cholesky (fun _ _ => 0) 2 = .error pdErr := by
  refine ⟨?_, cholesky_1x1_ok_and_zero_fails.2 2 (by norm_num)⟩
  exact cholesky_1x1_ok_and_zero_fails.1 (fun _ _ => -1)

/-! ## C6: `make_householder` -/

theorem sumRange_shift (m : ℕ) (g : ℕ → ℚ) :
    sumRange (m + 1) g = g 0 + sumRange m (fun k => g (k + 1)) := by
  induction m with
  | zero =>
      rw [sumRange_succ, sumRange_zero, sumRange_zero, zero_add, add_zero]
  | succ m ih =>
      rw [sumRange_succ, ih, sumRange_succ, add_assoc]

theorem sumRange_div (m : ℕ) (g : ℕ → ℚ) (c : ℚ) :
    sumRange m (fun k => g k / c) = sumRange m g / c := by
  rw [sumRange_eq_finset, sumRange_eq_finset, Finset.sum_div]

theorem sumRange_nonneg {m : ℕ} {g : ℕ → ℚ} (h : ∀ k, k < m → 0 ≤ g k) :
    0 ≤ sumRange m g := by
  rw [sumRange_eq_finset]
  exact Finset.sum_nonneg (fun k hk => h k (Finset.mem_range.mp hk))

theorem getD_zero_headD (x : List ℚ) : x.getD 0 0 = x.headD 0 := by
  cases x <;> rfl

theorem sumRange_split_head (n : ℕ) (hn : ¬(n = 0)) (g : ℕ → ℚ) :
    sumRange n g = g 0 + sumRange (n - 1) (fun k => g (k + 1)) := by
  obtain ⟨m, rfl⟩ : ∃ m, n = m + 1 := ⟨n - 1, by omega⟩
  rw [sumRange_shift, Nat.add_sub_cancel]

theorem getD_map_div (l : List ℚ) (c : ℚ) :
    ∀ k, (l.map (fun t => t / c)).getD k 0 = l.getD k 0 / c := by
  induction l with
  | nil =>
      intro k
      show (0 : ℚ) = 0 / c
      rw [zero_div]
  | cons a l ih =>
      intro k
      cases k with
      | zero => rfl
      | succ k => exact ih k

theorem hhV_length (x : List ℚ) : (hhV x).length = x.length := by
  simp [hhV]

theorem hhV_getD_zero (x : List ℚ) (hx : x ≠ []) : (hhV x).getD 0 0 = 1 := by
  cases x with
  | nil => exact absurd rfl hx
  | cons a l => rfl

theorem hhV_getD_succ (x : List ℚ) (k : ℕ) :
    (hhV x).getD (k + 1) 0 = x.getD (k + 1) 0 / hhAlpha x := by
  cases x with
  | nil =>
      show (0 : ℚ) = 0 / hhAlpha []
      rw [zero_div]
  | cons a l =>
      show (l.map (fun t => t / hhAlpha (a :: l))).getD k 0 = l.getD k 0 / hhAlpha (a :: l)
      exact getD_map_div l (hhAlpha (a :: l)) k

theorem signumQ_mul_self (t : ℚ) : signumQ t * signumQ t = 1 := by
  unfold signumQ
  split_ifs <;> norm_num

theorem dot_eq_sumRange :
    ∀ (xs ys : List ℚ), ys.length = xs.length →
    dot xs ys = sumRange xs.length (fun k => xs.getD k 0 * ys.getD k 0) := by
  intro xs
  induction xs with
  | nil =>
      intro ys h
      rw [List.length_eq_zero.mp h]
      rfl
  | cons a l ih =>
      intro ys h
      cases ys with
      | nil => exact absurd h (by simp)
      | cons b m =>
          have hlen : m.length = l.length := by simpa using h
          show a * b + (List.zipWith (fun x y => x * y) l m).sum =
            sumRange (l.length + 1)
              (fun k => (a :: l).getD k 0 * (b :: m).getD k 0)
          rw [sumRange_shift]
          have ht : sumRange l.length (fun k => (a :: l).getD (k + 1) 0 * (b :: m).getD (k + 1) 0)
              = sumRange l.length (fun k => l.getD k 0 * m.getD k 0) :=
            sumRange_congr (fun k _ => rfl)
          rw [ht, ← ih m hlen]
          rfl

/-- The pure-field core of the Householder zeroing property: with
`α = x₀ + s·r`, `s² = 1`, `r² = x₀² + T`, `T ≥ 0`, `N = 1 + T/α²` and
`A = x₀ + T/α`, any entry transforms as `XI - (XI/α)·(2/N)·A = 0`. -/
theorem householder_core (x₀ s r T α N A XI : ℚ)
    (hα : α ≠ 0) (hαd : α = x₀ + s * r) (hs : s * s = 1)
    (hS : r * r = x₀ * x₀ + T) (hT0 : 0 ≤ T)
    (hN : N = 1 + T / (α * α)) (hA : A = x₀ + T / α) :
    XI - XI / α * (2 / N) * A = 0 := by
  have hT : T = (s * r - x₀) * α := by
    rw [hαd]
    linear_combination (-1 : ℚ) * hS + (-(r * r)) * hs
  have hsr : s * r ≠ 0 := by
    intro h0
    have hs0 : s ≠ 0 := by
      intro h
      rw [h] at hs
      norm_num at hs
    have hr0 : r = 0 := by
      rcases mul_eq_zero.mp h0 with h | h
      · exact absurd h hs0
      · exact h
    rw [hr0] at hS
    have hx0 : x₀ = 0 := by nlinarith [mul_self_nonneg x₀]
    exact hα (by rw [hαd, hx0, hr0]; ring)
  have hA' : A = s * r := by
    rw [hA, hT, mul_div_cancel_right₀ _ hα]
    ring
  have hN' : N = 2 * (s * r) / α := by
    rw [hN, hT, mul_div_mul_right _ _ hα]
    have hone : (1 : ℚ) + (s * r - x₀) / α = (α + (s * r - x₀)) / α := by
      rw [add_div, div_self hα]
    rw [hone, hαd]
    congr 1
    ring
  have h2sr : 2 * (s * r) ≠ 0 := mul_ne_zero two_ne_zero hsr
  have hca : 2 / N * A = α := by
    rw [hN', hA', div_div_eq_mul_div, div_mul_eq_mul_div]
    rw [show (2 : ℚ) * α * (s * r) = α * (2 * (s * r)) from by ring]
    exact mul_div_cancel_right₀ _ h2sr
  rw [mul_assoc, hca, div_mul_cancel₀ _ hα, sub_self]

theorem dot_replicate_zero (m : ℕ) :
    dot (List.replicate m 0) (List.replicate m 0) = 0 := by
  induction m with
  | zero => rfl
  | succ m ih =>
      show (0 : ℚ) * 0 + dot (List.replicate m 0) (List.replicate m 0) = 0
      rw [ih]
      norm_num

/-- C6: `make_householder` errors `InvalidArg` on the empty column, errors
`DecompFailure` exactly when `alpha = x₀ + sign(x₀)·‖x‖` is zero (in
particular on every non-empty all-zero column), and otherwise returns the
reflector `I - v vᵗ · (2/vᵗv)` with `v = x/alpha`, `v₀` forced to `1`;
whenever the norm is exactly representable, applying the returned reflector
on the left to `x` zeroes every entry of `x` except the first. -/
theorem make_householder_spec :
    (make_householder [] = .error ⟨ErrorKind.InvalidArg,
      "Column for householder transform cannot be empty."⟩) ∧
    (∀ m : ℕ, 0 < m → make_householder (List.replicate m 0) =
      .error ⟨ErrorKind.DecompFailure,
        "Cannot produce househoulder transform from column as first entry is 0."⟩) ∧
    (∀ x : List ℚ, x ≠ [] →
      (hhAlpha x = 0 → make_householder x = .error ⟨ErrorKind.DecompFailure,
        "Cannot produce househoulder transform from column as first entry is 0."⟩) ∧
      (hhAlpha x ≠ 0 → make_householder x = .ok (fun j k =>
        (if j = k then 1 else 0) -
        (hhV x).getD j 0 * (hhV x).getD k 0 * (2 / dot (hhV x) (hhV x)))) ∧
      (∀ H, make_householder x = .ok H →
        ratSqrt (dot x x) * ratSqrt (dot x x) = dot x x →
        ∀ i, 0 < i → i < x.length →
        sumRange x.length (fun k => H i k * x.getD k 0) = 0)) := by
  refine ⟨rfl, ?_, ?_⟩
  · intro m hm
    obtain ⟨m', rfl⟩ : ∃ m', m = m' + 1 := ⟨m - 1, by omega⟩
    have hα : hhAlpha (List.replicate (m' + 1) 0) = 0 := by
      unfold hhAlpha
      rw [dot_replicate_zero, ratSqrt_zero, mul_zero, add_zero]
      rfl
    simp only [make_householder, List.length_replicate]
    rw [if_neg (by omega : ¬(m' + 1 = 0)), if_pos hα]
  · intro x hx
    have hlen : ¬(x.length = 0) := fun h => hx (List.length_eq_zero.mp h)
    refine ⟨?_, ?_, ?_⟩
    · intro hα
      simp only [make_householder]
      rw [if_neg hlen, if_pos hα]
    · intro hα
      simp only [make_householder]
      rw [if_neg hlen, if_neg hα]
    · intro H hH hr i hi hin
      have hα : hhAlpha x ≠ 0 := by
        intro h0
        simp only [make_householder, if_neg hlen, if_pos h0] at hH
        exact Except.noConfusion hH
      have hHeq : H = fun j k => (if j = k then (1:ℚ) else 0) -
          (hhV x).getD j 0 * (hhV x).getD k 0 * (2 / dot (hhV x) (hhV x)) := by
        simp only [make_householder, if_neg hlen, if_neg hα] at hH
        exact (Except.ok.inj hH).symm
      subst hHeq
      show sumRange x.length (fun k =>
        ((if i = k then (1:ℚ) else 0) -
          (hhV x).getD i 0 * (hhV x).getD k 0 * (2 / dot (hhV x) (hhV x))) *
        x.getD k 0) = 0
      have hVlen : (hhV x).length = x.length := hhV_length x
      have hdotx : dot x x = x.headD 0 * x.headD 0 +
          sumRange (x.length - 1) (fun k => x.getD (k+1) 0 * x.getD (k+1) 0) := by
        rw [dot_eq_sumRange x x rfl, sumRange_split_head x.length hlen, getD_zero_headD]
      have hdotv : dot (hhV x) (hhV x) = 1 +
          sumRange (x.length - 1) (fun k => x.getD (k+1) 0 * x.getD (k+1) 0) /
            (hhAlpha x * hhAlpha x) := by
        rw [dot_eq_sumRange (hhV x) (hhV x) rfl, hVlen,
          sumRange_split_head x.length hlen, hhV_getD_zero x hx, one_mul,
          ← sumRange_div]
        congr 1
        apply sumRange_congr
        intro k hk
        rw [hhV_getD_succ, div_mul_div_comm]
      have hAsum : sumRange x.length (fun k => (hhV x).getD k 0 * x.getD k 0) =
          x.headD 0 + sumRange (x.length - 1)
            (fun k => x.getD (k+1) 0 * x.getD (k+1) 0) / hhAlpha x := by
        rw [sumRange_split_head x.length hlen, hhV_getD_zero x hx, one_mul,
          getD_zero_headD, ← sumRange_div]
        congr 1
        apply sumRange_congr
        intro k hk
        rw [hhV_getD_succ, div_mul_eq_mul_div]
      have hin' : i ∈ Finset.range x.length := Finset.mem_range.mpr hin
      have hexp : sumRange x.length (fun k =>
          ((if i = k then (1:ℚ) else 0) -
            (hhV x).getD i 0 * (hhV x).getD k 0 * (2 / dot (hhV x) (hhV x))) *
          x.getD k 0) =
          x.getD i 0 - (hhV x).getD i 0 * (2 / dot (hhV x) (hhV x)) *
            sumRange x.length (fun k => (hhV x).getD k 0 * x.getD k 0) := by
        have hpt : ∀ k, ((if i = k then (1:ℚ) else 0) -
            (hhV x).getD i 0 * (hhV x).getD k 0 * (2 / dot (hhV x) (hhV x))) *
            x.getD k 0 =
            (if i = k then x.getD k 0 else 0) -
            ((hhV x).getD i 0 * (2 / dot (hhV x) (hhV x))) *
              ((hhV x).getD k 0 * x.getD k 0) := by
          intro k
          by_cases h : i = k
          · rw [if_pos h, if_pos h]; ring
          · rw [if_neg h, if_neg h]; ring
        rw [sumRange_congr (fun k _ => hpt k), sumRange_eq_finset,
          Finset.sum_sub_distrib, ← Finset.mul_sum,
          Finset.sum_ite_eq (Finset.range x.length) i (fun k => x.getD k 0),
          if_pos hin', ← sumRange_eq_finset]
      rw [hexp]
      obtain ⟨i', rfl⟩ : ∃ i', i = i' + 1 := ⟨i - 1, by omega⟩
      rw [hhV_getD_succ x i', hAsum, hdotv]
      exact householder_core (x.headD 0) (signumQ (x.headD 0)) (ratSqrt (dot x x))
        (sumRange (x.length - 1) (fun k => x.getD (k+1) 0 * x.getD (k+1) 0))
        (hhAlpha x) _ _ (x.getD (i' + 1) 0) hα rfl (signumQ_mul_self _)
        (hr.trans hdotx) (sumRange_nonneg (fun k _ => mul_self_nonneg _)) rfl rfl

/-- Witness for C6: on the column `[3, 4]` (whose norm `5` is exact) the
reflector is built and zeroes the second entry of the column. -/
theorem make_householder_spec_witness :
    ∃ H, make_householder ([3, 4] : List ℚ) = Except.ok H ∧
      sumRange 2 (fun k => H 1 k * ([3, 4] : List ℚ).getD k 0) = 0 := by
  have hdot : dot ([3, 4] : List ℚ) [3, 4] = 25 := by
    show (3 : ℚ) * 3 + (4 * 4 + 0) = 25
    norm_num
  have h25 : ratSqrt (25 : ℚ) = 5 := by
    have h5 : Nat.sqrt 25 = 5 := by
      rw [show (25 : ℕ) = 5 * 5 from rfl]
      exact Nat.sqrt_eq 5
    simp only [ratSqrt]
    norm_num [Rat.num_ofNat, Rat.den_ofNat, Nat.sqrt_one]
    rw [show Int.toNat 25 = 25 from rfl, h5]
    norm_num
  have hα : hhAlpha ([3, 4] : List ℚ) ≠ 0 := by
    unfold hhAlpha
    rw [hdot, h25]
    show (3 : ℚ) + signumQ 3 * 5 ≠ 0
    norm_num [signumQ]
  have hr : ratSqrt (dot ([3, 4] : List ℚ) [3, 4]) *
      ratSqrt (dot ([3, 4] : List ℚ) [3, 4]) = dot ([3, 4] : List ℚ) [3, 4] := by
    rw [hdot, h25]
    norm_num
  have hok := (make_householder_spec.2.2 ([3, 4] : List ℚ) (by simp)).2.1 hα
  refine ⟨_, hok, ?_⟩
  exact (make_householder_spec.2.2 ([3, 4] : List ℚ) (by simp)).2.2 _ hok hr 1
    Nat.one_pos (by norm_num)

/-! ## C7: the direct 2×2 eigenvalue formula -/

/-- C7: for every 2×2 matrix, `direct_2_by_2_eigenvalues` applies the
quadratic formula to `λ² - tr·λ + det`: it fails with `DecompFailure` when
the discriminant is negative (e.g. on `[[1,-3],[1,1]]`), and otherwise
returns `[(tr - √discr)/2, (tr + √discr)/2]`; when the square root is
exact, both returned values are roots of the characteristic polynomial. -/
theorem direct_2_by_2_eigenvalues_spec (m : Mat) :
    (discr2 m < 0 → direct_2_by_2_eigenvalues m = .error ⟨ErrorKind.DecompFailure,
      "Matrix has complex eigenvalues. Currently unsupported, sorry!"⟩) ∧
    (0 ≤ discr2 m → direct_2_by_2_eigenvalues m =
      .ok [(tr2 m - ratSqrt (discr2 m)) / 2, (tr2 m + ratSqrt (discr2 m)) / 2]) ∧
    (ratSqrt (discr2 m) * ratSqrt (discr2 m) = discr2 m →
      ∀ lam ∈ [(tr2 m - ratSqrt (discr2 m)) / 2, (tr2 m + ratSqrt (discr2 m)) / 2],
        lam * lam - tr2 m * lam + det2 m = 0) ∧
    direct_2_by_2_eigenvalues (fun j k => if j = k then 1 else if j = 0 then -3 else 1) =
      .error ⟨ErrorKind.DecompFailure,
        "Matrix has complex eigenvalues. Currently unsupported, sorry!"⟩ := by
  refine ⟨?_, ?_, ?_, ?_⟩
  · intro h
    simp only [direct_2_by_2_eigenvalues]
    rw [if_pos h]
  · intro h
    simp only [direct_2_by_2_eigenvalues]
    rw [if_neg (not_lt.mpr h)]
  · intro hr lam hlam
    have hd : discr2 m = tr2 m * tr2 m - 4 * det2 m := rfl
    obtain ⟨D, hD⟩ : ∃ D, discr2 m = D := ⟨_, rfl⟩
    rw [hD] at hr hd
    obtain ⟨r, hrr⟩ : ∃ r, ratSqrt D = r := ⟨_, rfl⟩
    rw [hrr] at hr
    rw [hd] at hr
    rw [hD, hrr] at hlam
    rcases List.mem_cons.mp hlam with h | h
    · subst h
      ring_nf
      linear_combination (1 / 4 : ℚ) * hr
    · rcases List.mem_cons.mp h with h | h
      · subst h
        ring_nf
        linear_combination (1 / 4 : ℚ) * hr
      · exact absurd h (List.not_mem_nil lam)
  · norm_num [direct_2_by_2_eigenvalues, discr2, tr2, det2]

/-- A concrete 2×2 matrix `[[2,0],[0,3]]` with exact eigenvalues. -/
def exDiag23 : Mat := fun j k =>
  if j = 0 ∧ k = 0 then 2 else if j = 1 ∧ k = 1 then 3 else 0

theorem ratSqrt_one : ratSqrt 1 = 1 := by
  simp only [ratSqrt]
  rw [show ((1 : ℚ)).num = 1 from rfl, show ((1 : ℚ)).den = 1 from rfl,
    show Int.toNat 1 = 1 from rfl, Nat.sqrt_one]
  norm_num

/-- Witness for C7: on `[[2,0],[0,3]]` the discriminant is `1`, the
returned eigenvalues are `[2, 3]`, and `2` is a root of `λ² - 5λ + 6`. -/
theorem direct_2_by_2_eigenvalues_spec_witness :
    direct_2_by_2_eigenvalues exDiag23 = .ok [2, 3] ∧
    (2 : ℚ) * 2 - 5 * 2 + 6 = 0 := by
  have ht : tr2 exDiag23 = 5 := by norm_num [tr2, exDiag23]
  have hdet : det2 exDiag23 = 6 := by norm_num [det2, exDiag23]
  have hdisc : discr2 exDiag23 = 1 := by
    simp only [discr2]
    rw [ht, hdet]
    norm_num
  have h0 : (0 : ℚ) ≤ discr2 exDiag23 := by
    rw [hdisc]
    norm_num
  have hmain := (direct_2_by_2_eigenvalues_spec exDiag23).2.1 h0
  rw [ht, hdisc, ratSqrt_one] at hmain
  norm_num at hmain
  refine ⟨hmain, ?_⟩
  have hrex : ratSqrt (discr2 exDiag23) * ratSqrt (discr2 exDiag23) = discr2 exDiag23 := by
    rw [hdisc, ratSqrt_one]
    norm_num
  have hmem : (2 : ℚ) ∈ [(tr2 exDiag23 - ratSqrt (discr2 exDiag23)) / 2,
      (tr2 exDiag23 + ratSqrt (discr2 exDiag23)) / 2] := by
    rw [ht, hdisc, ratSqrt_one]
    norm_num
  have hres := (direct_2_by_2_eigenvalues_spec exDiag23).2.2.1 hrex 2 hmem
  rw [ht, hdet] at hres
  exact hres

/-! ## C4: the SVD convergence scan -/

/-- The scan touches only super-diagonal entries with processed indices,
and sets each processed entry `(i, i+1)` to zero exactly when
`|b[i,i+1]| ≤ min_positive_value · (|b[i,i]| + b[i+1,i+1])` — the source's
condition, with no absolute value on the second diagonal entry. -/
theorem svdScanLoop_untouched_and_spec :
    ∀ (l : List ℕ), l.Nodup → ∀ (st : ScanState),
    (∀ j k, ¬(k = j + 1 ∧ j ∈ l) → (svdScanLoop l st).b j k = st.b j k) ∧
    (∀ i ∈ l, (svdScanLoop l st).b i (i + 1) =
      if |st.b i (i + 1)| ≤ minPositiveValue * (|st.b i i| + st.b (i + 1) (i + 1)) then 0
      else st.b i (i + 1)) := by
  intro l
  induction l with
  | nil =>
      intro _ st
      exact ⟨fun _ _ _ => rfl, fun i hi => absurd hi (List.not_mem_nil i)⟩
  | cons i l ih =>
      intro hnd st
      obtain ⟨hni, hndl⟩ := List.nodup_cons.mp hnd
      simp only [svdScanLoop]
      by_cases hc : |st.b i (i + 1)| ≤ minPositiveValue * (|st.b i i| + st.b (i + 1) (i + 1))
      · rw [if_pos hc]
        set st1 := if st.onLower then { st with q := st.q + 1 }
          else if st.onMiddle then { st with onMiddle := false, p := i + 1 } else st with hst1
        have hb1 : st1.b = st.b := by
          rw [hst1]
          split_ifs <;> rfl
        have hb2 : ({ st1 with b := updF st1.b i (i + 1) 0 } : ScanState).b =
            updF st.b i (i + 1) 0 := by
          show updF st1.b i (i + 1) 0 = updF st.b i (i + 1) 0
          rw [hb1]
        obtain ⟨iha, ihb⟩ := ih hndl { st1 with b := updF st1.b i (i + 1) 0 }
        constructor
        · intro j k hjk
          rw [iha j k (fun h => hjk ⟨h.1, List.mem_cons_of_mem i h.2⟩), hb2,
            updF_ne (fun h => hjk ⟨by omega, by rw [h.1]; exact List.mem_cons_self i l⟩)]
        · intro i' hi'
          rcases List.mem_cons.mp hi' with rfl | hmem
          · rw [iha i' (i' + 1) (fun h => hni h.2), hb2, updF_eq, if_pos hc]
          · have hii' : ¬(i' = i) := fun h => hni (h ▸ hmem)
            rw [ihb i' hmem, hb2,
              updF_ne (fun h => hii' h.1),
              updF_ne (fun h => by omega),
              updF_ne (fun h => by omega)]
      · rw [if_neg hc]
        set st1 := if st.onLower then { st with onMiddle := true, onLower := false } else st
          with hst1
        have hb1 : st1.b = st.b := by
          rw [hst1]
          split_ifs <;> rfl
        obtain ⟨iha, ihb⟩ := ih hndl st1
        constructor
        · intro j k hjk
          rw [iha j k (fun h => hjk ⟨h.1, List.mem_cons_of_mem i h.2⟩), hb1]
        · intro i' hi'
          rcases List.mem_cons.mp hi' with rfl | hmem
          · rw [iha i' (i' + 1) (fun h => hni h.2), hb1, if_neg hc]
          · rw [ihb i' hmem, hb1]

/-- C4 amended: a super-diagonal entry `b[i,i+1]` is set to zero by the
convergence scan exactly when `|b[i,i+1]| ≤ min_positive_value ·
(|b[i,i]| + b[i+1,i+1])` — the comparison is `≤` and the second diagonal
entry enters *without* absolute value; all other entries are unchanged. -/
theorem svdScan_superdiag (n : ℕ) (b : Mat) :
    (∀ i, i < n - 1 → (svdScan n b).b i (i + 1) =
      (if |b i (i + 1)| ≤ minPositiveValue * (|b i i| + b (i + 1) (i + 1)) then 0
       else b i (i + 1))) ∧
    (∀ j k, ¬(k = j + 1 ∧ j < n - 1) → (svdScan n b).b j k = b j k) := by
  have hnd : ((List.range (n - 1)).reverse).Nodup :=
    List.nodup_reverse.mpr (List.nodup_range _)
  obtain ⟨ha, hb⟩ := svdScanLoop_untouched_and_spec ((List.range (n - 1)).reverse) hnd
    ⟨0, true, 0, false, b⟩
  constructor
  · intro i hi
    exact hb i (List.mem_reverse.mpr (List.mem_range.mpr hi))
  · intro j k hjk
    exact ha j k (fun h =>
      hjk ⟨h.1, List.mem_range.mp (List.mem_reverse.mp h.2)⟩)

/-- The bidiagonal matrix of the C4 counterexample: `b[0,0] = 0`,
`b[0,1] = min_positive_value / 2`, `b[1,1] = -1`. -/
def svdCexB : Mat := fun j k =>
  if j = 0 ∧ k = 1 then minPositiveValue / 2 else if j = 1 ∧ k = 1 then -1 else 0

/-- C4 counterexample: on `svdCexB` the entry `b[0,1]` has magnitude below
`min_positive_value · (|b[0,0]| + |b[1,1]|)` — the claim's threshold — yet
the scan leaves it unchanged and non-zero, because the source computes the
threshold without the absolute value on `b[1,1]`, making it negative. -/
theorem svdScan_abs_counterexample :
    (svdScan 2 svdCexB).b 0 1 = minPositiveValue / 2 ∧
    minPositiveValue / 2 ≠ 0 ∧
    |svdCexB 0 1| < minPositiveValue * (|svdCexB 0 0| + |svdCexB 1 1|) := by
  have hb01 : svdCexB 0 1 = minPositiveValue / 2 := by norm_num [svdCexB]
  have hb00 : svdCexB 0 0 = 0 := by norm_num [svdCexB]
  have hb11 : svdCexB 1 1 = -1 := by norm_num [svdCexB]
  have hpos : (0 : ℚ) < minPositiveValue := by norm_num [minPositiveValue]
  have hcond : ¬(|minPositiveValue / 2| ≤ minPositiveValue * (|(0 : ℚ)| + -1)) := by
    intro h
    rw [abs_zero, zero_add, mul_neg_one] at h
    have h2 : (0 : ℚ) ≤ |minPositiveValue / 2| := abs_nonneg _
    linarith
  refine ⟨?_, ne_of_gt (by linarith), ?_⟩
  · have hrange : (List.range (2 - 1)).reverse = [0] := by decide
    show (svdScanLoop ((List.range (2 - 1)).reverse) ⟨0, true, 0, false, svdCexB⟩).b 0 1 =
      minPositiveValue / 2
    rw [hrange]
    simp only [svdScanLoop]
    rw [hb01, hb00, hb11, if_neg hcond]
    exact hb01
  · rw [hb01, hb00, hb11, abs_zero, zero_add]
    rw [abs_of_pos (by linarith : (0 : ℚ) < minPositiveValue / 2)]
    rw [show |(-1 : ℚ)| = 1 from by norm_num, mul_one]
    linarith

/-- Witness for the amended C4 on the all-ones 2×2 matrix: the entry
`b[0,1] = 1` is far above the threshold, so the scan leaves it at `1`. -/
theorem svdScan_superdiag_witness : (svdScan 2 (fun _ _ => 1)).b 0 1 = 1 := by
  have h := (svdScan_superdiag 2 (fun _ _ => 1)).1 0 (by norm_num)
  rw [if_neg (by norm_num [minPositiveValue])] at h
  exact h

/-! ## C5: `det` on singular matrices -/

theorem foldl_mul_eq_prod (g : ℕ → ℚ) :
    ∀ (m : ℕ) (c : ℚ),
    (List.range m).foldl (fun d i => d * g i) c = c * ∏ i ∈ Finset.range m, g i := by
  intro m
  induction m with
  | zero =>
      intro c
      rw [List.range_zero, List.foldl_nil, Finset.prod_range_zero, mul_one]
  | succ m ih =>
      intro c
      rw [List.range_succ, List.foldl_append, List.foldl_cons, List.foldl_nil,
        ih c, Finset.prod_range_succ, mul_assoc]

/-- For the closed-form branches (diagonal, 2×2, 3×3), the embedded `det`
agrees exactly with the mathematical determinant of the `n × n` window. -/
theorem det_closed_form (a : Mat) (n : ℕ) (h : isDiag a n = true ∨ n ≤ 3) :
    det a n = some (Matrix.det (toFinMatrix a n)) := by
  by_cases hd : isDiag a n = true
  · have hprop : ∀ j, j < n → ∀ k, k < n → ¬(j = k) → a j k = 0 := by
      have := hd
      rw [isDiag, decide_eq_true_eq] at this
      exact this
    have hmat : toFinMatrix a n = Matrix.diagonal (fun i : Fin n => a i.val i.val) := by
      ext i j
      by_cases hij : i = j
      · rw [hij, Matrix.diagonal_apply_eq]
        rfl
      · rw [Matrix.diagonal_apply_ne _ hij]
        exact hprop i.val i.isLt j.val j.isLt (fun hv => hij (Fin.ext hv))
    simp only [det, hd, if_true]
    rw [foldl_mul_eq_prod, one_mul, hmat, Matrix.det_diagonal]
    exact congrArg some (Fin.prod_univ_eq_prod_range (fun i => a i i) n).symm
  · have h0 : n ≠ 0 := by
      intro hn
      apply hd
      rw [isDiag, decide_eq_true_eq]
      intro j hj
      omega
    have h1 : n ≠ 1 := by
      intro hn
      apply hd
      rw [isDiag, decide_eq_true_eq]
      intro j hj k hk hne
      omega
    have hn23 : n = 2 ∨ n = 3 := by
      rcases h with h | h
      · exact absurd h hd
      · omega
    rcases hn23 with rfl | rfl
    · have hd' : isDiag a 2 = false := by
        cases hb : isDiag a 2 with
        | false => rfl
        | true => exact absurd hb hd
      rw [show det a 2 = some (a 0 0 * a 1 1 - a 0 1 * a 1 0) from by simp [det, hd']]
      rw [Matrix.det_fin_two]
      rfl
    · have hd' : isDiag a 3 = false := by
        cases hb : isDiag a 3 with
        | false => rfl
        | true => exact absurd hb hd
      rw [show det a 3 = some (a 0 0 * a 1 1 * a 2 2 + a 0 1 * a 1 2 * a 2 0 +
          a 0 2 * a 1 0 * a 2 1 - a 0 0 * a 1 2 * a 2 1 - a 0 1 * a 1 0 * a 2 2 -
          a 0 2 * a 1 1 * a 2 0) from by simp [det, hd']]
      rw [Matrix.det_fin_three]
      refine congrArg some ?_
      simp only [toFinMatrix, Matrix.of_apply, Fin.val_zero, Fin.val_one, Fin.val_two]
      ring

/-- C5 amended: on the branches that actually return (diagonal matrices of
any size, and all 2×2 / 3×3 matrices), `det` of a singular matrix is
exactly `some 0`; for larger non-diagonal singular matrices the internal
`lup_decomp().expect(..)` panics instead of returning a value (see the
counterexample). -/
theorem det_singular_closed_form (a : Mat) (n : ℕ)
    (h : isDiag a n = true ∨ n ≤ 3)
    (hs : Matrix.det (toFinMatrix a n) = 0) : det a n = some 0 := by
  rw [det_closed_form a n h, hs]

/-- Witness for the amended C5: the singular 1×1 matrix `[[0]]`. -/
theorem det_singular_closed_form_witness : det (fun _ _ => 0) 1 = some 0 := by
  apply det_singular_closed_form (fun _ _ => 0) 1 (Or.inr (by norm_num))
  rw [Matrix.det_fin_one]
  rfl

/-- C5 counterexample: the all-ones 4×4 matrix is singular (rows `0` and
`1` coincide), is not diagonal, and `det` does not return a value at all:
the internal `lup_decomp` fails at the second pivot and the `.expect` call
panics (modelled by `none`). -/
theorem det_ones4_counterexample :
    det (fun _ _ => 1) 4 = none ∧ Matrix.det (toFinMatrix (fun _ _ => 1) 4) = 0 := by
  constructor
  · have hdg : isDiag (fun _ _ => (1 : ℚ)) 4 = false := by
      rw [isDiag, decide_eq_false_iff_not]
      intro h
      exact one_ne_zero (h 0 (by omega) 1 (by omega) (by omega))
    have hf : isOkE (lup_decomp (fun _ _ => 1) 4) = false := by
      norm_num [isOkE, lup_decomp, lupP, lupPStep, lupOuterLoop, lupInner1, lupInner2,
        argmax, argmaxAux, matMulF, sumRange, updF, idMat, swapRows, List.range_succ]
    rcases herr : lup_decomp (fun _ _ => 1) 4 with e | ⟨l, u, p⟩
    · simp only [det, hdg, herr]
      norm_num
    · rw [herr] at hf
      exact absurd hf (by simp [isOkE])
  · exact Matrix.det_zero_of_row_eq (show (0 : Fin 4) ≠ 1 from by decide)
      (show toFinMatrix (fun _ _ => 1) 4 0 = toFinMatrix (fun _ _ => 1) 4 1 from rfl)

/-- The `qr_decomp` column loop never panics when started at a column
index `t ≤ m` with all processed indices below `n`: if the head index
equals `m` the sliced sub-column is empty, `make_householder` rejects it,
and the loop returns `Err` before the `m - i` subtraction can underflow
on any later index. -/
lemma qrLoop_ne_none (m n : ℕ) (cnt : ℕ) :
    ∀ (t : ℕ) (st : Mat × Mat), t ≤ m → t + cnt ≤ n →
    ∃ res, qrLoop m n (List.range' t cnt) st = some res ∧
      (res = Except.error qrErr ∨ ∃ q r, res = Except.ok (q, r)) := by
  induction cnt with
  | zero =>
      intro t st _ _
      exact ⟨Except.ok st, by rw [List.range'_zero]; rfl, Or.inr ⟨st.1, st.2, rfl⟩⟩
  | succ c ih =>
      intro t st htm htn
      rw [List.range'_succ]
      obtain ⟨q, r⟩ := st
      have hg1 : ¬ m < t := not_lt.mpr htm
      have hg2 : ¬ n < t + 1 := by omega
      by_cases htm' : t = m
      · have h0 : m - t = 0 := by omega
        have hmh : make_householder ((List.range (m - t)).map (fun dj => r (t + dj) t)) =
            Except.error ⟨ErrorKind.InvalidArg,
              "Column for householder transform cannot be empty."⟩ := by
          rw [h0]
          rfl
        refine ⟨Except.error qrErr, ?_, Or.inl rfl⟩
        simp only [qrLoop, if_neg hg1, if_neg hg2, hmh]
      · have htlt : t < m := lt_of_le_of_ne htm htm'
        rcases hmh : make_householder ((List.range (m - t)).map (fun dj => r (t + dj) t))
          with e | hh
        · refine ⟨Except.error qrErr, ?_, Or.inl rfl⟩
          simp only [qrLoop, if_neg hg1, if_neg hg2, hmh]
        · simp only [qrLoop, if_neg hg1, if_neg hg2, hmh]
          exact ih (t + 1) _ htlt (by omega)

/-- C8 (amended): for every shape other than `0 × 0`, `qr_decomp` runs to
completion and returns a value: either `Ok((Q, R))` or the
`DecompFailure` error "Cannot compute QR decomposition." — no panic
occurs.  (The `0 × 0` case panics; see the counterexample.) -/
theorem qr_decomp_runs_to_completion (m n : ℕ) (a : Mat) (h : ¬(m = 0 ∧ n = 0)) :
    ∃ res, qr_decomp m n a = some res ∧
      (res = Except.error qrErr ∨ ∃ q r, res = Except.ok (q, r)) := by
  rw [qr_decomp]
  by_cases hmn : m = n
  · have hn : 1 ≤ n := by
      rcases Nat.eq_zero_or_pos n with h0 | h1
      · exact absurd ⟨by omega, h0⟩ h
      · exact h1
    rw [if_pos hmn, if_neg (not_lt.mpr hn), List.range_eq_range']
    exact qrLoop_ne_none m n (n - 1) 0 (idMat, a) (Nat.zero_le m) (by omega)
  · rw [if_neg hmn, if_neg (Nat.not_lt_zero n), Nat.sub_zero, List.range_eq_range']
    exact qrLoop_ne_none m n n 0 (idMat, a) (Nat.zero_le m) (by omega)

/-- Witness for C8: the `1 × 1` matrix `[[1]]` (the loop runs zero times
and `qr_decomp` returns `Ok`). -/
theorem qr_decomp_runs_to_completion_witness :
    ¬((1 : ℕ) = 0 ∧ (1 : ℕ) = 0) ∧
      ∃ res, qr_decomp 1 1 (fun _ _ => (1 : ℚ)) = some res ∧
        (res = Except.error qrErr ∨ ∃ q r, res = Except.ok (q, r)) :=
  ⟨by decide, qr_decomp_runs_to_completion 1 1 (fun _ _ => 1) (by decide)⟩

/-- C8 counterexample: on the `0 × 0` matrix the loop bound
`n - ((m == n) as usize)` is the `usize` subtraction `0 - 1`, which
underflows and panics (modelled by `none`), contradicting the claim that
no fatal underflow occurs for any shape. -/
theorem qr_decomp_zero_counterexample :
    qr_decomp 0 0 (fun _ _ => (0 : ℚ)) = none := by
  rfl

end Rulinalg
